import Mathlib

/-!
A verification development for the `concurrent-stack` crate (`src/lib.rs`):
a lock-free LIFO stack built on two stamped slots, `top` (live chain) and
`trash` (free-node chain), with node recycling instead of freeing.

The embedding models the heap as a list of nodes; a raw `*mut Node<T>` is an
`Option Nat` (address into the heap, `none` = null).  A stamped slot
(`AtomicStampedPtr`) is a `(pointer, stamp)` pair.  The sequential semantics
of each operation is the body of its retry loop executed without interference
(every compare-and-swap succeeds); the retry structure of `pop_top` itself is
modelled separately as a small-step machine (`unlinkStep`) whose environment
may change the slot between steps.
-/

namespace CStack

/-- A raw pointer: an address into the heap, or null. -/
abbrev Ptr : Type := Option Nat

/-- Mirrors `struct Node<T> { data: Option<T>, next: *mut Node<T> }`. -/
structure Node (T : Type) where
  data : Option T
  next : Ptr
deriving Repr, DecidableEq

/-- The state of a `ConcurrentStack<T>`: the allocated nodes (addressed by
index) and the two stamped slots `top` and `trash`, each a
`(pointer, stamp)` pair as held by an `AtomicStampedPtr`. -/
structure StackState (T : Type) where
  heap : List (Node T)
  top : Ptr × Nat
  trash : Ptr × Nat
deriving Repr, DecidableEq

/-- Mirrors `ConcurrentStack::new()`: both slots start in the default
`(null, stamp 0)` state and no node is allocated. -/
def new (T : Type) : StackState T :=
  { heap := [], top := (none, 0), trash := (none, 0) }

/-- Read the `next` field of the node at address `a` (dereference of a
non-null pointer; out-of-range reads never occur in reachable states). -/
def nextOf (h : List (Node T)) (a : Nat) : Ptr :=
  match h[a]? with
  | some nd => nd.next
  | none => none

/-- Read the `data` field of the node at address `a`. -/
def dataOf (h : List (Node T)) (a : Nat) : Option T :=
  match h[a]? with
  | some nd => nd.data
  | none => none

/-- Write the `next` field of the node at address `a`
(the `(*node).next = p` store in `push_top`). -/
def setNext (h : List (Node T)) (a : Nat) (p : Ptr) : List (Node T) :=
  match h[a]? with
  | some nd => h.set a { nd with next := p }
  | none => h

/-- Write the `data` field of the node at address `a`
(the `(*node).data = Some(raw)` store, and the `mem::swap` in `pop`). -/
def setData (h : List (Node T)) (a : Nat) (d : Option T) : List (Node T) :=
  match h[a]? with
  | some nd => h.set a { nd with data := d }
  | none => h

/-- Mirrors `ConcurrentStack::push_top`: the loop body under a successful
compare-and-swap (no interference).  Reads `(p, v)` from the slot, stores
`p` into the node's `next`, and installs `(node, v + 1)` in the slot.
Returns the updated slot and heap. -/
def push_top (slot : Ptr × Nat) (h : List (Node T)) (a : Nat) :
    (Ptr × Nat) × List (Node T) :=
  ((some a, slot.2 + 1), setNext h a slot.1)

/-- Mirrors `ConcurrentStack::pop_top`: the loop body under a successful
compare-and-swap.  If the observed pointer is null it returns null at once,
leaving the slot untouched; otherwise it detaches the head, installing
`(head.next, v + 1)`.  Returns the detached pointer and the updated slot. -/
def pop_top (slot : Ptr × Nat) (h : List (Node T)) : Ptr × (Ptr × Nat) :=
  match slot.1 with
  | none => (none, slot)
  | some a => (some a, (nextOf h a, slot.2 + 1))

/-- Mirrors `ConcurrentStack::put_trash`: `push_top` on the `trash` slot. -/
def put_trash (trash : Ptr × Nat) (h : List (Node T)) (a : Nat) :
    (Ptr × Nat) × List (Node T) :=
  push_top trash h a

/-- Mirrors `ConcurrentStack::pick_trash`: `pop_top` on the `trash` slot. -/
def pick_trash (trash : Ptr × Nat) (h : List (Node T)) : Ptr × (Ptr × Nat) :=
  pop_top trash h

/-- Mirrors `ConcurrentStack::do_push`: try `pick_trash`; on null allocate a
fresh node `{ data: None, next: null }` at the next free address; store
`Some raw` into the node's payload; then `push_top(top, node)`. -/
def do_push (s : StackState T) (raw : T) : StackState T :=
  match pick_trash s.trash s.heap with
  | (some a, trash1) =>
      let h1 := setData s.heap a (some raw)
      let r := push_top s.top h1 a
      { heap := r.2, top := r.1, trash := trash1 }
  | (none, trash1) =>
      let a := s.heap.length
      let h0 := s.heap ++ [{ data := none, next := none }]
      let h1 := setData h0 a (some raw)
      let r := push_top s.top h1 a
      { heap := r.2, top := r.1, trash := trash1 }

/-- Mirrors `ConcurrentStack::push`. -/
def push (s : StackState T) (raw : T) : StackState T :=
  do_push s raw

/-- Mirrors `ConcurrentStack::pop`: `pop_top(top)`; on null return `None`;
otherwise swap the payload out (leaving `None`), `put_trash` the node, and
return the payload. -/
def pop (s : StackState T) : Option T × StackState T :=
  match pop_top s.top s.heap with
  | (none, top1) => (none, { heap := s.heap, top := top1, trash := s.trash })
  | (some a, top1) =>
      let v := dataOf s.heap a
      let h1 := setData s.heap a none
      let r := put_trash s.trash h1 a
      (v, { heap := r.2, top := top1, trash := r.1 })

/-- Mirrors `ConcurrentStack::empty`: reads the `top` slot and tests only
its pointer component for null (`self.top.load().0.is_null()`). -/
def empty (s : StackState T) : Bool :=
  s.top.1.isNone

/-- Mirrors `ConcurrentStack::release`: walk a chain from the slot's head
pointer, following `next` links, and collect (in order) the addresses of the
nodes handed back to the allocator via `Box::from_raw`.  The walk in the
source is unbounded; here `fuel` bounds it, and `fuel = heap.length`
suffices on every state satisfying the chain invariant (proved below). -/
def release (h : List (Node T)) : Ptr → Nat → List Nat
  | none, _ => []
  | some _, 0 => []
  | some a, fuel + 1 => a :: release h (nextOf h a) fuel

/-- Mirrors `Drop for ConcurrentStack`: `release(top)` then
`release(trash)`; the concatenated list of addresses freed at teardown. -/
def dropFrees (s : StackState T) : List Nat :=
  release s.heap s.top.1 s.heap.length ++
    release s.heap s.trash.1 s.heap.length

/-- The addresses of a chain: follow `next` links from `p` until null,
`none` if the walk does not terminate within `fuel` steps. -/
def chain (h : List (Node T)) : Ptr → Nat → Option (List Nat)
  | none, _ => some []
  | some _, 0 => none
  | some a, fuel + 1 => (chain h (nextOf h a) fuel).map (fun l => a :: l)

/-- Addresses of the `top` chain (in most-recently-pushed order). -/
def topAddrs (s : StackState T) : List Nat :=
  (chain s.heap s.top.1 s.heap.length).getD []

/-- Addresses of the `trash` chain. -/
def trashAddrs (s : StackState T) : List Nat :=
  (chain s.heap s.trash.1 s.heap.length).getD []

/-- The sequence of payload values in the `top` chain, head first. -/
def topVals (s : StackState T) : List T :=
  (topAddrs s).filterMap (dataOf s.heap)

/-- The ownership/payload invariant of the stack (spec §3): both chains are
proper (null-terminated, acyclic) lists of allocated addresses, every
allocated node belongs to exactly one chain, nodes on the `top` chain hold a
payload, and nodes on the `trash` chain are payload-free. -/
def Inv (s : StackState T) : Prop :=
  ∃ lt lr : List Nat,
    chain s.heap s.top.1 s.heap.length = some lt ∧
    chain s.heap s.trash.1 s.heap.length = some lr ∧
    (lt ++ lr).Perm (List.range s.heap.length) ∧
    (∀ a ∈ lt, (dataOf s.heap a).isSome) ∧
    (∀ a ∈ lr, dataOf s.heap a = none)

/-- A single stack operation, for schedules of calls. -/
inductive Op (T : Type) where
  | push (v : T)
  | pop
deriving Repr, DecidableEq

/-- Run a sequence of operations, collecting the values returned by the
successful pops, in order. -/
def runOps (s : StackState T) : List (Op T) → StackState T × List T
  | [] => (s, [])
  | Op.push v :: rest => runOps (do_push s v) rest
  | Op.pop :: rest =>
      let r := pop s
      let w := runOps r.2 rest
      (w.1, r.1.toList ++ w.2)

/-- The multiset (as a list) of values handed to `push` in a schedule. -/
def pushedVals : List (Op T) → List T :=
  List.filterMap (fun op => match op with | Op.push v => some v | Op.pop => none)

/-- States reachable from a freshly constructed stack by some sequence of
push/pop calls. -/
def Reachable (s : StackState T) : Prop :=
  ∃ ops : List (Op T), (runOps (new T) ops).1 = s

/-- Program counter of one thread executing the `pop_top` retry loop.
`load` is the top of the loop; `cas p v n` records the observed pair
`(p, v)` and the speculatively read `next` link `n`, just before the
compare-and-swap; `ret r` is the function's return with value `r`. -/
inductive UnlinkPC where
  | load
  | cas (p : Nat) (v : Nat) (n : Ptr)
  | ret (r : Ptr)
deriving Repr, DecidableEq

/-- One step of the `pop_top` loop against the current slot contents (which
interfering threads may have changed since the last step).  From `load`: a
null observed pointer returns null immediately (no compare-and-swap);
otherwise the head's `next` is read and the thread moves to the
compare-and-swap.  From `cas`: if the slot still holds the observed pair the
compare-and-swap succeeds, installing `(n, v + 1)` and returning the
detached head; otherwise it fails, the slot is untouched, and the thread
retries from a fresh load. -/
def unlinkStep (h : List (Node T)) (slot : Ptr × Nat) :
    UnlinkPC → UnlinkPC × (Ptr × Nat)
  | UnlinkPC.load =>
      match slot.1 with
      | none => (UnlinkPC.ret none, slot)
      | some p => (UnlinkPC.cas p slot.2 (nextOf h p), slot)
  | UnlinkPC.cas p v n =>
      if slot = (some p, v) then (UnlinkPC.ret (some p), (n, v + 1))
      else (UnlinkPC.load, slot)
  | UnlinkPC.ret r => (UnlinkPC.ret r, slot)

/-! ### Basic heap-access lemmas -/

theorem length_setNext (h : List (Node T)) (a : Nat) (p : Ptr) :
    (setNext h a p).length = h.length := by
  unfold setNext
  cases hh : h[a]? <;> simp

theorem length_setData (h : List (Node T)) (a : Nat) (d : Option T) :
    (setData h a d).length = h.length := by
  unfold setData
  cases hh : h[a]? <;> simp

theorem nextOf_setData (h : List (Node T)) (a : Nat) (d : Option T) (b : Nat) :
    nextOf (setData h a d) b = nextOf h b := by
  unfold setData nextOf
  cases hh : h[a]?
  · rfl
  · rcases eq_or_ne a b with rfl | hne
    · have ha : a < h.length := by
        by_contra hlt
        rw [List.getElem?_eq_none (Nat.le_of_not_lt hlt)] at hh
        exact Option.noConfusion hh
      rw [List.getElem?_set_self ha, hh]
    · rw [List.getElem?_set_ne hne]

theorem dataOf_setNext (h : List (Node T)) (a : Nat) (p : Ptr) (b : Nat) :
    dataOf (setNext h a p) b = dataOf h b := by
  unfold setNext dataOf
  cases hh : h[a]?
  · rfl
  · rcases eq_or_ne a b with rfl | hne
    · have ha : a < h.length := by
        by_contra hlt
        rw [List.getElem?_eq_none (Nat.le_of_not_lt hlt)] at hh
        exact Option.noConfusion hh
      rw [List.getElem?_set_self ha, hh]
    · rw [List.getElem?_set_ne hne]

theorem nextOf_setNext_self (h : List (Node T)) (a : Nat) (p : Ptr)
    (ha : a < h.length) : nextOf (setNext h a p) a = p := by
  unfold setNext nextOf
  rw [List.getElem?_eq_getElem ha]
  simp [List.getElem?_set_self ha]

theorem nextOf_setNext_ne (h : List (Node T)) (a : Nat) (p : Ptr) (b : Nat)
    (hne : b ≠ a) : nextOf (setNext h a p) b = nextOf h b := by
  unfold setNext nextOf
  cases hh : h[a]?
  · rfl
  · rw [List.getElem?_set_ne (Ne.symm hne)]

theorem dataOf_setData_self (h : List (Node T)) (a : Nat) (d : Option T)
    (ha : a < h.length) : dataOf (setData h a d) a = d := by
  unfold setData dataOf
  rw [List.getElem?_eq_getElem ha]
  simp [List.getElem?_set_self ha]

theorem dataOf_setData_ne (h : List (Node T)) (a : Nat) (d : Option T) (b : Nat)
    (hne : b ≠ a) : dataOf (setData h a d) b = dataOf h b := by
  unfold setData dataOf
  cases hh : h[a]?
  · rfl
  · rw [List.getElem?_set_ne (Ne.symm hne)]

theorem nextOf_append_lt (h : List (Node T)) (x : Node T) (b : Nat)
    (hb : b < h.length) : nextOf (h ++ [x]) b = nextOf h b := by
  unfold nextOf
  rw [List.getElem?_append, if_pos hb]

theorem dataOf_append_lt (h : List (Node T)) (x : Node T) (b : Nat)
    (hb : b < h.length) : dataOf (h ++ [x]) b = dataOf h b := by
  unfold dataOf
  rw [List.getElem?_append, if_pos hb]

theorem nextOf_append_self (h : List (Node T)) (x : Node T) :
    nextOf (h ++ [x]) h.length = x.next := by
  unfold nextOf
  rw [List.getElem?_concat_length]

theorem dataOf_append_self (h : List (Node T)) (x : Node T) :
    dataOf (h ++ [x]) h.length = x.data := by
  unfold dataOf
  rw [List.getElem?_concat_length]

/-! ### Chain lemmas -/

theorem chain_none (h : List (Node T)) (fuel : Nat) :
    chain h none fuel = some [] := by
  cases fuel <;> rfl

theorem chain_some_succ {h : List (Node T)} {a fuel : Nat} {l : List Nat}
    (hc : chain h (some a) (fuel + 1) = some l) :
    ∃ l0, chain h (nextOf h a) fuel = some l0 ∧ l = a :: l0 := by
  simp only [chain, Option.map_eq_some'] at hc
  obtain ⟨l0, hl0, hl⟩ := hc
  exact ⟨l0, hl0, hl.symm⟩

theorem chain_cons {h : List (Node T)} {a : Nat} {fuel : Nat} {l : List Nat}
    (hc : chain h (nextOf h a) fuel = some l) :
    chain h (some a) (fuel + 1) = some (a :: l) := by
  simp [chain, hc]

theorem chain_congr {h h2 : List (Node T)} {p : Ptr} {fuel : Nat} {l : List Nat}
    (hc : chain h p fuel = some l)
    (hnext : ∀ b ∈ l, nextOf h2 b = nextOf h b) :
    chain h2 p fuel = some l := by
  induction fuel generalizing p l with
  | zero =>
      cases p with
      | none => simpa [chain_none] using hc
      | some a => simp [chain] at hc
  | succ fuel ih =>
      cases p with
      | none => simpa [chain_none] using hc
      | some a =>
          obtain ⟨l0, hl0, rfl⟩ := chain_some_succ hc
          have ha : nextOf h2 a = nextOf h a :=
            hnext a (List.mem_cons_self a l0)
          have h0 := ih hl0 (fun b hb => hnext b (List.mem_cons_of_mem a hb))
          rw [← ha] at h0
          exact chain_cons h0

theorem chain_mono {h : List (Node T)} {p : Ptr} {fuel fuel2 : Nat} {l : List Nat}
    (hc : chain h p fuel = some l) (hle : fuel ≤ fuel2) :
    chain h p fuel2 = some l := by
  induction fuel generalizing p l fuel2 with
  | zero =>
      cases p with
      | none => simpa [chain_none] using hc
      | some a => simp [chain] at hc
  | succ fuel ih =>
      cases p with
      | none => simpa [chain_none] using hc
      | some a =>
          obtain ⟨fuel3, rfl⟩ : ∃ k, fuel2 = k + 1 :=
            ⟨fuel2 - 1,
              (Nat.succ_pred_eq_of_pos (Nat.lt_of_lt_of_le (Nat.succ_pos fuel) hle)).symm⟩
          obtain ⟨l0, hl0, rfl⟩ := chain_some_succ hc
          exact chain_cons (ih hl0 (Nat.le_of_succ_le_succ hle))

theorem chain_length_le {h : List (Node T)} {p : Ptr} {fuel : Nat} {l : List Nat}
    (hc : chain h p fuel = some l) : l.length ≤ fuel := by
  induction fuel generalizing p l with
  | zero =>
      cases p with
      | none => rw [chain_none] at hc; cases Option.some.inj hc; simp
      | some a => simp [chain] at hc
  | succ fuel ih =>
      cases p with
      | none => rw [chain_none] at hc; cases Option.some.inj hc; simp
      | some a =>
          obtain ⟨l0, hl0, rfl⟩ := chain_some_succ hc
          simpa using Nat.succ_le_succ (ih hl0)

theorem release_eq_chain {h : List (Node T)} {p : Ptr} {fuel : Nat} {l : List Nat}
    (hc : chain h p fuel = some l) : release h p fuel = l := by
  induction fuel generalizing p l with
  | zero =>
      cases p with
      | none => rw [chain_none] at hc; cases Option.some.inj hc; rfl
      | some a => simp [chain] at hc
  | succ fuel ih =>
      cases p with
      | none => rw [chain_none] at hc; cases Option.some.inj hc; rfl
      | some a =>
          obtain ⟨l0, hl0, rfl⟩ := chain_some_succ hc
          simp [release, ih hl0]

theorem chain_fuel_min {h : List (Node T)} {p : Ptr} {fuel : Nat} {l : List Nat}
    (hc : chain h p fuel = some l) : chain h p l.length = some l := by
  induction fuel generalizing p l with
  | zero =>
      cases p with
      | none => rw [chain_none] at hc; cases Option.some.inj hc; rfl
      | some a => simp [chain] at hc
  | succ fuel ih =>
      cases p with
      | none => rw [chain_none] at hc; cases Option.some.inj hc; rfl
      | some a =>
          obtain ⟨l0, hl0, rfl⟩ := chain_some_succ hc
          exact chain_cons (ih hl0)

/-! ### Unfolding lemmas for the operations -/

theorem do_push_eq_reuse (s : StackState T) (v : T) (a : Nat)
    (ht : s.trash.1 = some a) :
    do_push s v =
      { heap := setNext (setData s.heap a (some v)) a s.top.1,
        top := (some a, s.top.2 + 1),
        trash := (nextOf s.heap a, s.trash.2 + 1) } := by
  simp [do_push, pick_trash, pop_top, push_top, ht]

theorem do_push_eq_alloc (s : StackState T) (v : T)
    (ht : s.trash.1 = none) :
    do_push s v =
      { heap := setNext
          (setData (s.heap ++ [{ data := none, next := none }])
            s.heap.length (some v)) s.heap.length s.top.1,
        top := (some s.heap.length, s.top.2 + 1),
        trash := s.trash } := by
  cases hs : s.trash with
  | mk p stamp =>
      have hp : p = none := by rw [hs] at ht; exact ht
      subst hp
      simp [do_push, pick_trash, pop_top, push_top, hs]

theorem pop_eq_some (s : StackState T) (a : Nat) (ht : s.top.1 = some a) :
    pop s =
      (dataOf s.heap a,
        { heap := setNext (setData s.heap a none) a s.trash.1,
          top := (nextOf s.heap a, s.top.2 + 1),
          trash := (some a, s.trash.2 + 1) }) := by
  simp [pop, pop_top, put_trash, push_top, ht]

theorem pop_top_null (slot : Ptr × Nat) (h : List (Node T)) (ht : slot.1 = none) :
    pop_top slot h = (none, slot) := by
  simp [pop_top, ht]

theorem pop_eq_none (s : StackState T) (ht : s.top.1 = none) :
    pop s = (none, s) := by
  have h1 := pop_top_null s.top s.heap ht
  simp [pop, h1]

theorem topVals_of_top_null (s : StackState T) (ht : s.top.1 = none) :
    topVals s = [] := by
  simp [topVals, topAddrs, ht, chain_none]

theorem Inv_new (T : Type) : Inv (new T) :=
  ⟨[], [], rfl, rfl, List.Perm.refl _, by simp, by simp⟩

/-! ### Effect of `do_push` on states satisfying the invariant -/

theorem push_reuse_spec (s : StackState T) (v : T) (a : Nat)
    (ht : s.trash.1 = some a) (hInv : Inv s) :
    Inv (do_push s v) ∧
    (do_push s v).heap.length = s.heap.length ∧
    (do_push s v).top.1 = some a ∧
    dataOf (do_push s v).heap a = some v ∧
    topAddrs (do_push s v) = a :: topAddrs s ∧
    topVals (do_push s v) = v :: topVals s ∧
    trashAddrs s = a :: trashAddrs (do_push s v) := by
  obtain ⟨lt, lr, hlt, hlr, hperm, hdTop, hdTrash⟩ := hInv
  rw [do_push_eq_reuse s v a ht]
  set h2 := setNext (setData s.heap a (some v)) a s.top.1 with hh2
  rw [ht] at hlr
  have hpos : 0 < s.heap.length := by
    cases hfuel : s.heap.length with
    | zero => rw [hfuel] at hlr; simp [chain] at hlr
    | succ m => exact Nat.succ_pos m
  obtain ⟨m, hm⟩ : ∃ m, s.heap.length = m + 1 :=
    ⟨s.heap.length - 1, (Nat.succ_pred_eq_of_pos hpos).symm⟩
  rw [hm] at hlr
  obtain ⟨lr0, hlr0, rfl⟩ := chain_some_succ hlr
  have hmemn : ∀ b ∈ lt ++ a :: lr0, b < s.heap.length := fun b hb =>
    List.mem_range.mp (hperm.mem_iff.mp hb)
  have hnodup : (lt ++ a :: lr0).Nodup :=
    hperm.symm.nodup (List.nodup_range _)
  obtain ⟨hndlt, hndr, hdisj⟩ := List.nodup_append.mp hnodup
  have halt : a ∉ lt := fun hmem => hdisj hmem (List.mem_cons_self a lr0)
  have halr0 : a ∉ lr0 := (List.nodup_cons.mp hndr).1
  have haln : a < s.heap.length :=
    hmemn a (List.mem_append_right lt (List.mem_cons_self a lr0))
  have hlen2 : h2.length = s.heap.length := by
    rw [hh2, length_setNext, length_setData]
  have hnx_self : nextOf h2 a = s.top.1 := by
    rw [hh2]
    exact nextOf_setNext_self _ _ _ (by rw [length_setData]; exact haln)
  have hnx_ne : ∀ b, b ≠ a → nextOf h2 b = nextOf s.heap b := fun b hb => by
    rw [hh2, nextOf_setNext_ne _ _ _ _ hb, nextOf_setData]
  have hdt_self : dataOf h2 a = some v := by
    rw [hh2, dataOf_setNext, dataOf_setData_self _ _ _ haln]
  have hdt_ne : ∀ b, b ≠ a → dataOf h2 b = dataOf s.heap b := fun b hb => by
    rw [hh2, dataOf_setNext, dataOf_setData_ne _ _ _ _ hb]
  have hlt2 : chain h2 s.top.1 s.heap.length = some lt :=
    chain_congr hlt (fun b hb => hnx_ne b (fun he => halt (he ▸ hb)))
  have hltlen : lt.length ≤ m := by
    have hl := hperm.length_eq
    simp only [List.length_append, List.length_cons, List.length_range] at hl
    omega
  have hlt2m : chain h2 s.top.1 m = some lt :=
    chain_mono (chain_fuel_min hlt2) hltlen
  have htop2 : chain h2 (some a) (m + 1) = some (a :: lt) :=
    chain_cons (by rw [hnx_self]; exact hlt2m)
  have hlr2 : chain h2 (nextOf s.heap a) m = some lr0 :=
    chain_congr hlr0 (fun b hb => hnx_ne b (fun he => halr0 (he ▸ hb)))
  have hlr2n : chain h2 (nextOf s.heap a) s.heap.length = some lr0 :=
    chain_mono hlr2 (by omega)
  have hperm2 : ((a :: lt) ++ lr0).Perm (List.range s.heap.length) := by
    have h1 : ((a :: lt) ++ lr0) = a :: (lt ++ lr0) := rfl
    rw [h1]
    exact List.perm_middle.symm.trans hperm
  have hfm : lt.filterMap (dataOf h2) = lt.filterMap (dataOf s.heap) :=
    List.filterMap_congr (fun b hb => hdt_ne b (fun he => halt (he ▸ hb)))
  refine ⟨?_, ?_, rfl, hdt_self, ?_, ?_, ?_⟩
  · refine ⟨a :: lt, lr0, ?_, ?_, ?_, ?_, ?_⟩
    · show chain h2 (some a) h2.length = some (a :: lt)
      rw [hlen2, hm]; exact htop2
    · show chain h2 (nextOf s.heap a) h2.length = some lr0
      rw [hlen2]; exact hlr2n
    · show ((a :: lt) ++ lr0).Perm (List.range h2.length)
      rw [hlen2]; exact hperm2
    · intro b hb
      rcases List.mem_cons.mp hb with rfl | hb2
      · rw [hdt_self]; rfl
      · rw [hdt_ne b (fun he => halt (he ▸ hb2))]; exact hdTop b hb2
    · intro b hb
      rw [hdt_ne b (fun he => halr0 (he ▸ hb))]
      exact hdTrash b (List.mem_cons_of_mem a hb)
  · exact hlen2
  · show (chain h2 (some a) h2.length).getD [] =
      a :: (chain s.heap s.top.1 s.heap.length).getD []
    rw [hlen2, hm, htop2, ← hm, hlt]
    rfl
  · show ((chain h2 (some a) h2.length).getD []).filterMap (dataOf h2) =
      v :: ((chain s.heap s.top.1 s.heap.length).getD []).filterMap (dataOf s.heap)
    rw [hlen2, hm, htop2, ← hm, hlt]
    show (a :: lt).filterMap (dataOf h2) = v :: lt.filterMap (dataOf s.heap)
    rw [List.filterMap_cons, hdt_self, hfm]
  · show (chain s.heap s.trash.1 s.heap.length).getD [] =
      a :: (chain h2 (nextOf s.heap a) h2.length).getD []
    rw [ht, hm, hlr, hlen2, hlr2n]
    rfl

theorem push_alloc_spec (s : StackState T) (v : T)
    (ht : s.trash.1 = none) (hInv : Inv s) :
    Inv (do_push s v) ∧
    (do_push s v).heap.length = s.heap.length + 1 ∧
    (do_push s v).top.1 = some s.heap.length ∧
    dataOf (do_push s v).heap s.heap.length = some v ∧
    topAddrs (do_push s v) = s.heap.length :: topAddrs s ∧
    topVals (do_push s v) = v :: topVals s ∧
    trashAddrs (do_push s v) = [] ∧
    (do_push s v).trash = s.trash := by
  obtain ⟨lt, lr, hlt, hlr, hperm, hdTop, hdTrash⟩ := hInv
  rw [do_push_eq_alloc s v ht]
  set h0 := s.heap ++ [({ data := none, next := none } : Node T)] with hh0
  set h2 := setNext (setData h0 s.heap.length (some v)) s.heap.length s.top.1
    with hh2
  rw [ht, chain_none] at hlr
  cases Option.some.inj hlr
  rw [List.append_nil] at hperm
  have hmemn : ∀ b ∈ lt, b < s.heap.length := fun b hb =>
    List.mem_range.mp (hperm.mem_iff.mp hb)
  have hlen0 : h0.length = s.heap.length + 1 := by
    rw [hh0, List.length_append, List.length_cons, List.length_nil]
  have hwlt : s.heap.length < h0.length := by omega
  have hlen2 : h2.length = s.heap.length + 1 := by
    rw [hh2, length_setNext, length_setData, hlen0]
  have hnx_self : nextOf h2 s.heap.length = s.top.1 := by
    rw [hh2]
    exact nextOf_setNext_self _ _ _ (by rw [length_setData]; exact hwlt)
  have hnx_ne : ∀ b, b < s.heap.length → nextOf h2 b = nextOf s.heap b :=
    fun b hb => by
      rw [hh2, nextOf_setNext_ne _ _ _ _ (by omega), nextOf_setData, hh0,
        nextOf_append_lt _ _ _ hb]
  have hdt_self : dataOf h2 s.heap.length = some v := by
    rw [hh2, dataOf_setNext, dataOf_setData_self _ _ _ hwlt]
  have hdt_ne : ∀ b, b < s.heap.length → dataOf h2 b = dataOf s.heap b :=
    fun b hb => by
      rw [hh2, dataOf_setNext, dataOf_setData_ne _ _ _ _ (by omega), hh0,
        dataOf_append_lt _ _ _ hb]
  have hlt2 : chain h2 s.top.1 s.heap.length = some lt :=
    chain_congr hlt (fun b hb => hnx_ne b (hmemn b hb))
  have htop2 : chain h2 (some s.heap.length) (s.heap.length + 1) =
      some (s.heap.length :: lt) :=
    chain_cons (by rw [hnx_self]; exact hlt2)
  have hperm2 : ((s.heap.length :: lt) ++ []).Perm
      (List.range (s.heap.length + 1)) := by
    rw [List.append_nil, List.range_succ]
    exact (hperm.cons s.heap.length).trans
      (by simpa using
        (@List.perm_middle Nat s.heap.length (List.range s.heap.length) []).symm)
  have hfm : lt.filterMap (dataOf h2) = lt.filterMap (dataOf s.heap) :=
    List.filterMap_congr (fun b hb => hdt_ne b (hmemn b hb))
  refine ⟨?_, ?_, rfl, hdt_self, ?_, ?_, ?_, rfl⟩
  · refine ⟨s.heap.length :: lt, [], ?_, ?_, ?_, ?_, ?_⟩
    · show chain h2 (some s.heap.length) h2.length = some (s.heap.length :: lt)
      rw [hlen2]; exact htop2
    · show chain h2 s.trash.1 h2.length = some []
      rw [ht, chain_none]
    · show ((s.heap.length :: lt) ++ []).Perm (List.range h2.length)
      rw [hlen2]; exact hperm2
    · intro b hb
      rcases List.mem_cons.mp hb with rfl | hb2
      · rw [hdt_self]; rfl
      · rw [hdt_ne b (hmemn b hb2)]; exact hdTop b hb2
    · intro b hb
      exact absurd hb (List.not_mem_nil b)
  · exact hlen2
  · show (chain h2 (some s.heap.length) h2.length).getD [] =
      s.heap.length :: (chain s.heap s.top.1 s.heap.length).getD []
    rw [hlen2, htop2, hlt]
    rfl
  · show ((chain h2 (some s.heap.length) h2.length).getD []).filterMap
        (dataOf h2) =
      v :: ((chain s.heap s.top.1 s.heap.length).getD []).filterMap
        (dataOf s.heap)
    rw [hlen2, htop2, hlt]
    show (s.heap.length :: lt).filterMap (dataOf h2) =
      v :: lt.filterMap (dataOf s.heap)
    rw [List.filterMap_cons, hdt_self, hfm]
  · show (chain h2 s.trash.1 h2.length).getD [] = []
    rw [ht, chain_none]
    rfl

/-! ### Effect of `pop` on states satisfying the invariant -/

theorem pop_some_spec (s : StackState T) (a : Nat)
    (ht : s.top.1 = some a) (hInv : Inv s) :
    Inv (pop s).2 ∧
    (pop s).1 = dataOf s.heap a ∧
    (∃ w, dataOf s.heap a = some w ∧ (pop s).1 = some w ∧
      topVals s = w :: topVals (pop s).2) ∧
    (pop s).2.heap.length = s.heap.length ∧
    dataOf (pop s).2.heap a = none ∧
    (pop s).2.top.1 = nextOf s.heap a ∧
    (pop s).2.trash.1 = some a ∧
    topAddrs s = a :: topAddrs (pop s).2 ∧
    trashAddrs (pop s).2 = a :: trashAddrs s := by
  obtain ⟨lt, lr, hlt, hlr, hperm, hdTop, hdTrash⟩ := hInv
  rw [pop_eq_some s a ht]
  set h2 := setNext (setData s.heap a none) a s.trash.1 with hh2
  rw [ht] at hlt
  have hpos : 0 < s.heap.length := by
    cases hfuel : s.heap.length with
    | zero => rw [hfuel] at hlt; simp [chain] at hlt
    | succ m => exact Nat.succ_pos m
  obtain ⟨m, hm⟩ : ∃ m, s.heap.length = m + 1 :=
    ⟨s.heap.length - 1, (Nat.succ_pred_eq_of_pos hpos).symm⟩
  rw [hm] at hlt
  obtain ⟨lt0, hlt0, rfl⟩ := chain_some_succ hlt
  have hnodup : ((a :: lt0) ++ lr).Nodup :=
    hperm.symm.nodup (List.nodup_range _)
  obtain ⟨hnd1, hnd2, hdisj⟩ := List.nodup_append.mp hnodup
  have halt0 : a ∉ lt0 := (List.nodup_cons.mp hnd1).1
  have halr : a ∉ lr := fun hmem => hdisj (List.mem_cons_self a lt0) hmem
  have haln : a < s.heap.length :=
    List.mem_range.mp (hperm.mem_iff.mp
      (List.mem_append_left lr (List.mem_cons_self a lt0)))
  have hlen2 : h2.length = s.heap.length := by
    rw [hh2, length_setNext, length_setData]
  have hnx_self : nextOf h2 a = s.trash.1 := by
    rw [hh2]
    exact nextOf_setNext_self _ _ _ (by rw [length_setData]; exact haln)
  have hnx_ne : ∀ b, b ≠ a → nextOf h2 b = nextOf s.heap b := fun b hb => by
    rw [hh2, nextOf_setNext_ne _ _ _ _ hb, nextOf_setData]
  have hdt_self : dataOf h2 a = none := by
    rw [hh2, dataOf_setNext, dataOf_setData_self _ _ _ haln]
  have hdt_ne : ∀ b, b ≠ a → dataOf h2 b = dataOf s.heap b := fun b hb => by
    rw [hh2, dataOf_setNext, dataOf_setData_ne _ _ _ _ hb]
  have hlt2 : chain h2 (nextOf s.heap a) m = some lt0 :=
    chain_congr hlt0 (fun b hb => hnx_ne b (fun he => halt0 (he ▸ hb)))
  have hlt2n : chain h2 (nextOf s.heap a) s.heap.length = some lt0 :=
    chain_mono hlt2 (by omega)
  have hlr2 : chain h2 s.trash.1 s.heap.length = some lr :=
    chain_congr hlr (fun b hb => hnx_ne b (fun he => halr (he ▸ hb)))
  have hlrlen : lr.length ≤ m := by
    have hl := hperm.length_eq
    simp only [List.length_append, List.length_cons, List.length_range] at hl
    omega
  have hlr2m : chain h2 s.trash.1 m = some lr :=
    chain_mono (chain_fuel_min hlr2) hlrlen
  have htrash2 : chain h2 (some a) (m + 1) = some (a :: lr) :=
    chain_cons (by rw [hnx_self]; exact hlr2m)
  have hperm2 : (lt0 ++ a :: lr).Perm (List.range s.heap.length) :=
    List.perm_middle.trans hperm
  have hfm : lt0.filterMap (dataOf h2) = lt0.filterMap (dataOf s.heap) :=
    List.filterMap_congr (fun b hb => hdt_ne b (fun he => halt0 (he ▸ hb)))
  have hv : (dataOf s.heap a).isSome := hdTop a (List.mem_cons_self a lt0)
  obtain ⟨w, hw⟩ := Option.isSome_iff_exists.mp hv
  refine ⟨?_, rfl, ?_, ?_, hdt_self, rfl, rfl, ?_, ?_⟩
  · refine ⟨lt0, a :: lr, ?_, ?_, ?_, ?_, ?_⟩
    · show chain h2 (nextOf s.heap a) h2.length = some lt0
      rw [hlen2]; exact hlt2n
    · show chain h2 (some a) h2.length = some (a :: lr)
      rw [hlen2, hm]; exact htrash2
    · show (lt0 ++ a :: lr).Perm (List.range h2.length)
      rw [hlen2]; exact hperm2
    · intro b hb
      rw [hdt_ne b (fun he => halt0 (he ▸ hb))]
      exact hdTop b (List.mem_cons_of_mem a hb)
    · intro b hb
      rcases List.mem_cons.mp hb with rfl | hb2
      · exact hdt_self
      · rw [hdt_ne b (fun he => halr (he ▸ hb2))]; exact hdTrash b hb2
  · refine ⟨w, hw, hw, ?_⟩
    show ((chain s.heap s.top.1 s.heap.length).getD []).filterMap
        (dataOf s.heap) =
      w :: ((chain h2 (nextOf s.heap a) h2.length).getD []).filterMap
        (dataOf h2)
    rw [ht, hm, hlt, hlen2, hlt2n]
    show (a :: lt0).filterMap (dataOf s.heap) = w :: lt0.filterMap (dataOf h2)
    rw [List.filterMap_cons, hw, hfm]
  · exact hlen2
  · show (chain s.heap s.top.1 s.heap.length).getD [] =
      a :: (chain h2 (nextOf s.heap a) h2.length).getD []
    rw [ht, hm, hlt, hlen2, hlt2n]
    rfl
  · show (chain h2 (some a) h2.length).getD [] =
      a :: (chain s.heap s.trash.1 s.heap.length).getD []
    rw [hlen2, hm, htrash2, ← hm, hlr]
    rfl

/-! ### Invariant propagation and value conservation -/

theorem Inv_do_push (s : StackState T) (v : T) (hInv : Inv s) :
    Inv (do_push s v) := by
  cases ht : s.trash.1 with
  | none => exact (push_alloc_spec s v ht hInv).1
  | some a => exact (push_reuse_spec s v a ht hInv).1

theorem topVals_do_push (s : StackState T) (v : T) (hInv : Inv s) :
    topVals (do_push s v) = v :: topVals s := by
  cases ht : s.trash.1 with
  | none => exact (push_alloc_spec s v ht hInv).2.2.2.2.2.1
  | some a => exact (push_reuse_spec s v a ht hInv).2.2.2.2.2.1

theorem do_push_top_some (s : StackState T) (v : T) :
    ∃ a, (do_push s v).top.1 = some a := by
  cases ht : s.trash.1 with
  | none => exact ⟨s.heap.length, by rw [do_push_eq_alloc s v ht]⟩
  | some a => exact ⟨a, by rw [do_push_eq_reuse s v a ht]⟩

theorem Inv_pop (s : StackState T) (hInv : Inv s) : Inv (pop s).2 := by
  cases ht : s.top.1 with
  | none => rw [pop_eq_none s ht]; exact hInv
  | some a => exact (pop_some_spec s a ht hInv).1

theorem Inv_runOps (ops : List (Op T)) (s0 : StackState T) (hInv : Inv s0) :
    Inv (runOps s0 ops).1 := by
  induction ops generalizing s0 with
  | nil => exact hInv
  | cons op rest ih =>
      cases op with
      | push v => exact ih (do_push s0 v) (Inv_do_push s0 v hInv)
      | pop => exact ih (pop s0).2 (Inv_pop s0 hInv)

theorem Reachable_Inv (s : StackState T) (h : Reachable s) : Inv s := by
  obtain ⟨ops, rfl⟩ := h
  exact Inv_runOps ops (new T) (Inv_new T)

theorem runOps_perm (ops : List (Op T)) (s0 : StackState T) (hInv : Inv s0) :
    ((runOps s0 ops).2 ++ topVals (runOps s0 ops).1).Perm
      (topVals s0 ++ pushedVals ops) := by
  induction ops generalizing s0 with
  | nil => simp [runOps, pushedVals]
  | cons op rest ih =>
      cases op with
      | push v =>
          have h1 := ih (do_push s0 v) (Inv_do_push s0 v hInv)
          rw [topVals_do_push s0 v hInv] at h1
          have h2 : ((v :: topVals s0) ++ pushedVals rest).Perm
              (topVals s0 ++ pushedVals (Op.push v :: rest)) := by
            show (v :: (topVals s0 ++ pushedVals rest)).Perm
              (topVals s0 ++ v :: pushedVals rest)
            exact List.perm_middle.symm
          exact h1.trans h2
      | pop =>
          cases htp : s0.top.1 with
          | none =>
              have hpop := pop_eq_none s0 htp
              have h1 := ih s0 hInv
              show (((pop s0).1.toList ++ (runOps (pop s0).2 rest).2) ++
                  topVals (runOps (pop s0).2 rest).1).Perm
                (topVals s0 ++ pushedVals rest)
              rw [hpop]
              simpa using h1
          | some a =>
              obtain ⟨hInv2, hval, ⟨w, hw, hw1, hw2⟩, hrest⟩ :=
                pop_some_spec s0 a htp hInv
              have h1 := ih (pop s0).2 hInv2
              show (((pop s0).1.toList ++ (runOps (pop s0).2 rest).2) ++
                  topVals (runOps (pop s0).2 rest).1).Perm
                (topVals s0 ++ pushedVals rest)
              rw [hw1, hw2]
              show ((w :: (runOps (pop s0).2 rest).2) ++
                  topVals (runOps (pop s0).2 rest).1).Perm
                ((w :: topVals (pop s0).2) ++ pushedVals rest)
              exact h1.cons w

theorem pop_of_topVals (s : StackState T) (hInv : Inv s) (w : T)
    (rest : List T) (htv : topVals s = w :: rest) :
    (pop s).1 = some w ∧ topVals (pop s).2 = rest ∧ Inv (pop s).2 := by
  cases ht : s.top.1 with
  | none =>
      rw [topVals_of_top_null s ht] at htv
      exact absurd htv (by simp)
  | some a =>
      obtain ⟨hInv2, _, ⟨w2, hw2, hw21, hw22⟩, _⟩ := pop_some_spec s a ht hInv
      rw [htv] at hw22
      obtain ⟨rfl, hr⟩ : w = w2 ∧ rest = topVals (pop s).2 := by
        have h1 := List.cons.inj hw22
        exact ⟨h1.1, h1.2⟩
      exact ⟨hw21, hr.symm, hInv2⟩

/-! ### The claims -/

/-- C1: Single-threaded LIFO order: on a freshly constructed stack, pushing
values `a`, `b`, `c` (in that order) and then calling `pop` three times
returns the values `c`, `b`, `a` in that order. -/
theorem claim_C1 (T : Type) (a b c : T) :
    (pop (push (push (push (new T) a) b) c)).1 = some c ∧
    (pop (pop (push (push (push (new T) a) b) c)).2).1 = some b ∧
    (pop (pop (pop (push (push (push (new T) a) b) c)).2).2).1 = some a := by
  simp only [push]
  have i0 := Inv_new T
  have i1 := Inv_do_push (new T) a i0
  have i2 := Inv_do_push (do_push (new T) a) b i1
  have i3 := Inv_do_push (do_push (do_push (new T) a) b) c i2
  have t3 : topVals (do_push (do_push (do_push (new T) a) b) c) =
      [c, b, a] := by
    rw [topVals_do_push _ c i2, topVals_do_push _ b i1,
      topVals_do_push _ a i0]
    rfl
  obtain ⟨r1, t2, j2⟩ := pop_of_topVals _ i3 c [b, a] t3
  obtain ⟨r2, t1, j1⟩ := pop_of_topVals _ j2 b [a] t2
  obtain ⟨r3, _, _⟩ := pop_of_topVals _ j1 a [] t1
  exact ⟨r1, r2, r3⟩

/-- C2: every push first attempts to take a node from the trash chain: when
the trash chain holds a node, no allocation happens, the reused node is
exactly the old trash head, and it is removed from the trash chain; only
when trash is empty is a fresh node allocated (at the next fresh address);
in both cases the pushed value sits in the payload of the node that became
the new head of the top chain. -/
theorem claim_C2 (s : StackState T) (v : T) (hInv : Inv s) :
    (∀ a, s.trash.1 = some a →
      (do_push s v).heap.length = s.heap.length ∧
      (do_push s v).top.1 = some a ∧
      trashAddrs s = a :: trashAddrs (do_push s v)) ∧
    (s.trash.1 = none →
      (do_push s v).heap.length = s.heap.length + 1 ∧
      (do_push s v).top.1 = some s.heap.length) ∧
    (∃ a, (do_push s v).top.1 = some a ∧
      dataOf (do_push s v).heap a = some v ∧
      topAddrs (do_push s v) = a :: topAddrs s) := by
  refine ⟨?_, ?_, ?_⟩
  · intro a ht
    obtain ⟨_, h2, h3, _, _, _, h7⟩ := push_reuse_spec s v a ht hInv
    exact ⟨h2, h3, h7⟩
  · intro ht
    obtain ⟨_, h2, h3, _⟩ := push_alloc_spec s v ht hInv
    exact ⟨h2, h3⟩
  · cases ht : s.trash.1 with
    | none =>
        obtain ⟨_, _, h3, h4, h5, _⟩ := push_alloc_spec s v ht hInv
        exact ⟨s.heap.length, h3, h4, h5⟩
    | some a =>
        obtain ⟨_, _, h3, h4, h5, _⟩ := push_reuse_spec s v a ht hInv
        exact ⟨a, h3, h4, h5⟩

/-- C2 witness: on a fresh stack the trash chain is empty, so the first push
allocates; after a push and a pop the trash chain holds node 0, so the next
push reuses it and performs no allocation. -/
theorem claim_C2_witness :
    ((do_push (new Nat) 5).heap.length = (new Nat).heap.length + 1 ∧
      (do_push (new Nat) 5).top.1 = some (new Nat).heap.length) ∧
    ((do_push (pop (do_push (new Nat) 5)).2 7).heap.length =
        (pop (do_push (new Nat) 5)).2.heap.length ∧
      (do_push (pop (do_push (new Nat) 5)).2 7).top.1 = some 0 ∧
      trashAddrs (pop (do_push (new Nat) 5)).2 =
        0 :: trashAddrs (do_push (pop (do_push (new Nat) 5)).2 7)) :=
  ⟨(claim_C2 (new Nat) 5 (Inv_new Nat)).2.1 rfl,
    (claim_C2 (pop (do_push (new Nat) 5)).2 7
      (Inv_pop (do_push (new Nat) 5) (Inv_do_push (new Nat) 5 (Inv_new Nat)))).1
      0 rfl⟩

/-- C3: a pop on a non-empty stack detaches the head node of the top chain,
returns its payload, leaves the node's payload `None`, links that node at
the head of the trash chain, and frees nothing (the number of allocated
nodes is unchanged). -/
theorem claim_C3 (s : StackState T) (a : Nat) (hInv : Inv s)
    (ht : s.top.1 = some a) :
    (∃ w, dataOf s.heap a = some w ∧ (pop s).1 = some w) ∧
    topAddrs s = a :: topAddrs (pop s).2 ∧
    dataOf (pop s).2.heap a = none ∧
    trashAddrs (pop s).2 = a :: trashAddrs s ∧
    (pop s).2.trash.1 = some a ∧
    (pop s).2.heap.length = s.heap.length := by
  obtain ⟨_, _, ⟨w, hw, hw1, _⟩, h4, h5, _, h7, h8, h9⟩ :=
    pop_some_spec s a ht hInv
  exact ⟨⟨w, hw, hw1⟩, h8, h5, h9, h7, h4⟩

/-- C3 witness: popping the one-element stack obtained by pushing 5 onto a
fresh stack. -/
theorem claim_C3_witness :
    (∃ w, dataOf (do_push (new Nat) 5).heap 0 = some w ∧
      (pop (do_push (new Nat) 5)).1 = some w) ∧
    topAddrs (do_push (new Nat) 5) = 0 :: topAddrs (pop (do_push (new Nat) 5)).2 ∧
    dataOf (pop (do_push (new Nat) 5)).2.heap 0 = none ∧
    trashAddrs (pop (do_push (new Nat) 5)).2 =
      0 :: trashAddrs (do_push (new Nat) 5) ∧
    (pop (do_push (new Nat) 5)).2.trash.1 = some 0 ∧
    (pop (do_push (new Nat) 5)).2.heap.length =
      (do_push (new Nat) 5).heap.length :=
  claim_C3 (do_push (new Nat) 5) 0 (Inv_do_push (new Nat) 5 (Inv_new Nat)) rfl

/-- C4: pop on an empty stack (top chain head is null) returns `None` as a
regular outcome and leaves the stack state completely unchanged; the model
is total, so no failure is raised. -/
theorem claim_C4 (s : StackState T) (ht : s.top.1 = none) :
    pop s = (none, s) :=
  pop_eq_none s ht

/-- C4 witness: popping a freshly constructed stack. -/
theorem claim_C4_witness : pop (new Nat) = (none, new Nat) :=
  claim_C4 (new Nat) rfl

/-- C5: the ownership/payload invariant — every allocated node belongs to
exactly one of the top chain and the trash chain (in-flight nodes exist only
inside an operation, and the sequential semantics is observed at operation
boundaries), nodes on the top chain hold a payload and nodes on the trash
chain do not — holds initially and is preserved by every push and pop. -/
theorem claim_C5 (T : Type) :
    Inv (new T) ∧
    (∀ (s : StackState T) (v : T), Inv s → Inv (do_push s v)) ∧
    (∀ s : StackState T, Inv s → Inv (pop s).2) :=
  ⟨Inv_new T, fun s v h => Inv_do_push s v h, fun s h => Inv_pop s h⟩

/-- C5 witness: the invariant holds on a freshly constructed stack and is
preserved by a concrete push. -/
theorem claim_C5_witness :
    Inv (new Nat) ∧ Inv (do_push (new Nat) 3) :=
  ⟨(claim_C5 Nat).1, (claim_C5 Nat).2.1 (new Nat) 3 (Inv_new Nat)⟩

/-- C6: the unlink loop (`pop_top`, shared by `pop` on `top` and by
`pick_trash` on `trash`): when the observed head pointer is null it returns
null immediately, with no compare-and-swap and no retry; otherwise it reads
the head node's next link and attempts a compare-and-swap replacing the
observed `(pointer, stamp)` pair with the next link; on compare-and-swap
failure the slot is untouched and the thread retries from a fresh load, on
success the slot holds `(next, stamp + 1)` and the old head is returned. -/
theorem claim_C6 (T : Type) (h : List (Node T)) (slot : Ptr × Nat)
    (p v : Nat) (n : Ptr) :
    (slot.1 = none →
      unlinkStep h slot UnlinkPC.load = (UnlinkPC.ret none, slot)) ∧
    (slot.1 = some p →
      unlinkStep h slot UnlinkPC.load =
        (UnlinkPC.cas p slot.2 (nextOf h p), slot)) ∧
    (slot = (some p, v) →
      unlinkStep h slot (UnlinkPC.cas p v n) =
        (UnlinkPC.ret (some p), (n, v + 1))) ∧
    (slot ≠ (some p, v) →
      unlinkStep h slot (UnlinkPC.cas p v n) = (UnlinkPC.load, slot)) ∧
    pick_trash slot h = pop_top slot h := by
  refine ⟨?_, ?_, ?_, ?_, rfl⟩
  · intro h1; simp [unlinkStep, h1]
  · intro h1; simp [unlinkStep, h1]
  · intro h1; simp [unlinkStep, h1]
  · intro h1; simp [unlinkStep, h1]

/-- C6 witness: a concrete successful compare-and-swap step and a concrete
null-head immediate return. -/
theorem claim_C6_witness :
    unlinkStep ([] : List (Node Nat)) (some 2, 7) (UnlinkPC.cas 2 7 none) =
      (UnlinkPC.ret (some 2), (none, 8)) ∧
    unlinkStep ([] : List (Node Nat)) (none, 4) UnlinkPC.load =
      (UnlinkPC.ret none, (none, 4)) :=
  ⟨(claim_C6 Nat [] (some 2, 7) 2 7 none).2.2.1 rfl,
    (claim_C6 Nat [] (none, 4) 2 7 none).1 rfl⟩

/-- C7: the emptiness check reads only the top slot's pointer field — its
result depends on nothing but that pointer, with no stamp comparison — and
reports whether the pointer is null; on a freshly constructed stack, whose
slots start in the default `(null, stamp 0)` state, it returns true. -/
theorem claim_C7 (T : Type) :
    empty (new T) = true ∧
    (new T).top = (none, 0) ∧ (new T).trash = (none, 0) ∧
    (∀ s1 s2 : StackState T, s1.top.1 = s2.top.1 → empty s1 = empty s2) ∧
    (∀ s : StackState T, empty s = true ↔ s.top.1 = none) := by
  refine ⟨rfl, rfl, rfl, ?_, ?_⟩
  · intro s1 s2 h12
    simp [empty, h12]
  · intro s
    simp [empty, Option.isNone_iff_eq_none]

/-- C7 witness: two states agreeing on the top pointer but differing in
stamps and in the trash slot are judged alike by the emptiness check. -/
theorem claim_C7_witness :
    empty (new Nat) =
      empty ({ heap := [], top := (none, 5), trash := (some 3, 2) } :
        StackState Nat) :=
  (claim_C7 Nat).2.2.2.1 (new Nat)
    { heap := [], top := (none, 5), trash := (some 3, 2) } rfl

/-- C8: teardown walks the top chain and then the trash chain and releases
exactly the nodes of those two chains, in that order; on any state
satisfying the invariant this frees every allocated node exactly once (the
freed list is duplicate-free and is a permutation of all allocated
addresses); and neither push nor pop ever deallocates (teardown is the only
code path returning memory). -/
theorem claim_C8 (s : StackState T) (hInv : Inv s) :
    dropFrees s = topAddrs s ++ trashAddrs s ∧
    (dropFrees s).Nodup ∧
    (dropFrees s).Perm (List.range s.heap.length) ∧
    (∀ v : T, s.heap.length ≤ (do_push s v).heap.length) ∧
    (pop s).2.heap.length = s.heap.length := by
  obtain ⟨lt, lr, hlt, hlr, hperm, -, -⟩ := id hInv
  have hrel1 : release s.heap s.top.1 s.heap.length = lt :=
    release_eq_chain hlt
  have hrel2 : release s.heap s.trash.1 s.heap.length = lr :=
    release_eq_chain hlr
  have heq : dropFrees s = lt ++ lr := by
    rw [dropFrees, hrel1, hrel2]
  have htA : topAddrs s = lt := by rw [topAddrs, hlt]; rfl
  have htR : trashAddrs s = lr := by rw [trashAddrs, hlr]; rfl
  refine ⟨by rw [heq, htA, htR], ?_, ?_, ?_, ?_⟩
  · rw [heq]
    exact hperm.symm.nodup (List.nodup_range _)
  · rw [heq]
    exact hperm
  · intro v
    cases ht : s.trash.1 with
    | none => rw [(push_alloc_spec s v ht hInv).2.1]; omega
    | some a => rw [(push_reuse_spec s v a ht hInv).2.1]
  · cases ht : s.top.1 with
    | none => rw [pop_eq_none s ht]
    | some a => exact (pop_some_spec s a ht hInv).2.2.2.1

/-- C8 witness: teardown of the one-node stack obtained by a single push
frees exactly address 0, once. -/
theorem claim_C8_witness :
    dropFrees (do_push (new Nat) 5) =
      topAddrs (do_push (new Nat) 5) ++ trashAddrs (do_push (new Nat) 5) ∧
    (dropFrees (do_push (new Nat) 5)).Nodup ∧
    (dropFrees (do_push (new Nat) 5)).Perm
      (List.range (do_push (new Nat) 5).heap.length) := by
  have h := claim_C8 (do_push (new Nat) 5) (Inv_do_push (new Nat) 5 (Inv_new Nat))
  exact ⟨h.1, h.2.1, h.2.2.1⟩

/-- C9: for any schedule of push and pop calls (each call taking effect at
its linearization point, the successful compare-and-swap), the multiset of
values returned across all pops plus the multiset still in the top chain is
exactly the multiset of pushed values; in particular once every pushed value
has been popped (the stack reports empty) the returned and pushed multisets
coincide: no value is lost and none is duplicated. -/
theorem claim_C9 (T : Type) (ops : List (Op T)) :
    ((runOps (new T) ops).2 ++ topVals (runOps (new T) ops).1).Perm
      (pushedVals ops) ∧
    (empty (runOps (new T) ops).1 = true →
      ((runOps (new T) ops).2).Perm (pushedVals ops)) := by
  have h := runOps_perm ops (new T) (Inv_new T)
  have h0 : topVals (new T) = [] := rfl
  rw [h0, List.nil_append] at h
  refine ⟨h, ?_⟩
  intro he
  have hnull : (runOps (new T) ops).1.top.1 = none := by
    have := he
    rwa [empty, Option.isNone_iff_eq_none] at this
  rw [topVals_of_top_null _ hnull, List.append_nil] at h
  exact h

/-- C9 witness: the schedule push 4, push 6, pop, pop ends empty and the
popped values are a permutation of the pushed ones. -/
theorem claim_C9_witness :
    ((runOps (new Nat) [Op.push 4, Op.push 6, Op.pop, Op.pop]).2).Perm
      (pushedVals [Op.push 4, Op.push 6, Op.pop, Op.pop]) :=
  (claim_C9 Nat [Op.push 4, Op.push 6, Op.pop, Op.pop]).2 rfl

/-- C10: push/pop round-trip on any reachable state: pushing `v` and then
immediately popping returns `some v` and restores the sequence of values in
the top chain to exactly what it was before the push. -/
theorem claim_C10 (s : StackState T) (v : T) (hReach : Reachable s) :
    (pop (do_push s v)).1 = some v ∧
    topVals (pop (do_push s v)).2 = topVals s := by
  have hInv := Reachable_Inv s hReach
  have hInv2 := Inv_do_push s v hInv
  have htv := topVals_do_push s v hInv
  obtain ⟨h1, h2, -⟩ := pop_of_topVals (do_push s v) hInv2 v (topVals s) htv
  exact ⟨h1, h2⟩

/-- C10 witness: the round trip on the (reachable) fresh stack. -/
theorem claim_C10_witness :
    (pop (do_push (new Nat) 9)).1 = some 9 ∧
    topVals (pop (do_push (new Nat) 9)).2 = topVals (new Nat) :=
  claim_C10 (new Nat) 9 ⟨[], rfl⟩

end CStack
